import Mathlib

set_option linter.unusedVariables false
set_option linter.unnecessarySeqFocus false

/-!
Verification of the column-alignment program (`src/main.rs`, with the
historical snapshot `align.rs`).  Lines of text are modelled as lists of
bytes (`List Nat`); the display-width measurement provided by the external
`unicode_width` crate is modelled as an abstract function
`wf : List Nat → Nat` applied to a word's bytes.  All definitions in the
`Align` namespace are direct translations of the Rust source; definitions
whose names start with `spec` are written from the specification's wording
and compared with the source-derived definitions by refinement theorems.
-/

namespace Align

/-- Model of Rust `(c as char).is_whitespace()` applied to a byte `c`
(`Words::new` skips word gaps with this predicate).  The Unicode
white-space code points below 256 are U+0009..U+000D, U+0020, U+0085 and
U+00A0. -/
def isWs (c : Nat) : Bool :=
  c == 9 || c == 10 || c == 11 || c == 12 || c == 13 || c == 32 || c == 133 || c == 160

/-- Model of `is_indent` from `src/main.rs`: the byte is a space or a tab. -/
def is_indent (c : Nat) : Bool :=
  c == 32 || c == 9

/-- One step of the escape/quote state machine inside the word scan of
`Words::new`.  Given the flags `esc` (previous byte was an unescaped
backslash) and `strg` (inside a quoted region) and the current byte `c`,
it returns the pair (new `esc`, new `strg`) exactly as the Rust loop body
computes them: the quote state toggles on an unescaped delimiter byte, and
`esc` is set by a backslash byte only when that backslash is not itself
escaped. -/
def stepFlags (delim : Nat) (esc strg : Bool) (c : Nat) : Bool × Bool :=
  (!esc && c == 92, if !esc && c == delim then !strg else strg)

/-- Scan of one word in `Words::new`: returns the number of bytes the word
occupies, i.e. the index of the first space/tab byte reached while the
quote state is off (or the length of the remaining line if no such byte
exists).  This is the `for (i, &c) in line[start..]` loop of the Rust
source, with the flag updates factored through `stepFlags`. -/
def scanWord (delim : Nat) (esc strg : Bool) : List Nat → Nat
  | [] => 0
  | c :: rest =>
    if !(stepFlags delim esc strg c).2 && (c == 32 || c == 9) then 0
    else 1 + scanWord delim (stepFlags delim esc strg c).1 (stepFlags delim esc strg c).2 rest

/-- Iterated `stepFlags` over a run of bytes, starting from the state
`st = (esc, string)`. -/
def runFlags (delim : Nat) (st : Bool × Bool) (bytes : List Nat) : Bool × Bool :=
  bytes.foldl (fun st c => stepFlags delim st.1 st.2 c) st

/-- Word scan with the quote machinery disabled: the word ends at the first
space/tab byte.  This is the specification's notion of plain whitespace
splitting, used to compare with `scanWord`. -/
def scanPlain : List Nat → Nat
  | [] => 0
  | c :: rest => if c == 32 || c == 9 then 0 else 1 + scanPlain rest

/-- Model of `line[pos..].iter().position(|&c| !(c as char).is_whitespace())`:
index of the first non-whitespace byte, if any. -/
def skipWs : List Nat → Option Nat
  | [] => none
  | c :: rest => if isWs c then (skipWs rest).map (· + 1) else some 0

/-- The word-collecting loop of `Words::new` (`src/main.rs`).  `pos` is the
current scan position, `nwords` the number of words already produced, and
`fuel` a structural bound on the number of remaining iterations; the
theorem `words_new_terminates_thm` shows that any fuel larger than the
line length yields the same (fixed-point) result, so the Rust `while` loop
terminates.  When the word count reaches `untl`, the rest of the line
becomes one final catch-all span. -/
def wordsGo (line : List Nat) (delim untl : Nat) : Nat → Nat → Nat → List (Nat × Nat)
  | 0, _, _ => []
  | fuel + 1, pos, nwords =>
    if pos < line.length then
      match skipWs (line.drop pos) with
      | none => []
      | some i =>
        let s := pos + i
        if nwords == untl then
          [(s, line.length)]
        else
          let e := s + scanWord delim false false (line.drop s)
          (s, e) :: wordsGo line delim untl fuel e (nwords + 1)
    else []

/-- Model of the `Words` struct: the owned line plus its word spans. -/
structure Words where
  line : List Nat
  words : List (Nat × Nat)
  deriving DecidableEq, Repr

/-- Model of `Words::new(line, str_delim, until)`.  `delim` is the byte
`str_delim as u8`. -/
def Words.new (line : List Nat) (delim untl : Nat) : Words :=
  ⟨line, wordsGo line delim untl (line.length + 1) 0 0⟩

/-- The byte contents of each word, as yielded by `WordIter`
(`&line[start..end]` for each span). -/
def Words.contents (w : Words) : List (List Nat) :=
  w.words.map (fun p => (w.line.drop p.1).take (p.2 - p.1))

/-- The word-collecting loop with quote-awareness disabled (the scan uses
`scanPlain`); otherwise identical to `wordsGo`, including the `untl`
catch-all.  This is the specification's plain whitespace splitting. -/
def plainGo (line : List Nat) (untl : Nat) : Nat → Nat → Nat → List (Nat × Nat)
  | 0, _, _ => []
  | fuel + 1, pos, nwords =>
    if pos < line.length then
      match skipWs (line.drop pos) with
      | none => []
      | some i =>
        let s := pos + i
        if nwords == untl then
          [(s, line.length)]
        else
          let e := s + scanPlain (line.drop s)
          (s, e) :: plainGo line untl fuel e (nwords + 1)
    else []

/-- Plain whitespace splitting of a line, returning word contents directly
(equivalent to reading the spans of `plainGo` back from the line, with the
catch-all limit `untl`). -/
def wordsRecU (untl : Nat) : Nat → List Nat → Nat → List (List Nat)
  | 0, _, _ => []
  | fuel + 1, l, nwords =>
    if l.isEmpty then []
    else
      match skipWs l with
      | none => []
      | some i =>
        let l' := l.drop i
        if nwords == untl then [l']
        else (l'.take (scanPlain l')) :: wordsRecU untl fuel (l'.drop (scanPlain l')) (nwords + 1)

/-- Plain whitespace splitting with no column limit at all. -/
def wordsRec : Nat → List Nat → List (List Nat)
  | 0, _ => []
  | fuel + 1, l =>
    match skipWs l with
    | none => []
    | some i =>
      let l' := l.drop i
      (l'.take (scanPlain l')) :: wordsRec fuel (l'.drop (scanPlain l'))

/-- Plain whitespace splitting with a canonical sufficient fuel. -/
def wordsR (l : List Nat) : List (List Nat) :=
  wordsRec (l.length + 1) l

/-- Model of the `DynVec<T>` struct: a growable vector plus a mutable
default used for every index beyond the stored range. -/
structure DynVec (T : Type) where
  vec : List T
  default : T
  deriving DecidableEq, Repr

/-- Model of `DynVec::new(default)`. -/
def DynVec.new (d : T) : DynVec T :=
  ⟨[], d⟩

/-- Model of `DynVec::get(i)`: the stored value for an in-range index and
the current default otherwise.  Total: it never fails. -/
def DynVec.get (d : DynVec T) (i : Nat) : T :=
  if i < d.vec.length then d.vec.getD i d.default else d.default

/-- Model of `DynVec::set(index, v)`: grows the vector to `index + 1`
entries if needed, filling the gap with the current default, then stores
`v` at `index`. -/
def DynVec.set (d : DynVec T) (index : Nat) (v : T) : DynVec T :=
  let grown :=
    if d.vec.length ≤ index then d.vec ++ List.replicate (index + 1 - d.vec.length) d.default
    else d.vec
  ⟨grown.set index v, d.default⟩

/-- Model of `DynVec::push(v)`: updates the default to `v` and appends `v`
at the end. -/
def DynVec.push (d : DynVec T) (v : T) : DynVec T :=
  ⟨d.vec ++ [v], v⟩

/-- The per-column alignment policy. -/
inductive Alignment where
  | Left
  | Right
  | Centered
  deriving DecidableEq, Repr

/-- Model of the `Positioning` struct produced by `parse_positioning`. -/
structure Positioning where
  max_width : DynVec Nat
  align : DynVec Alignment
  deriving DecidableEq, Repr

/-- The error cases of `parse_positioning` (the Rust `bail!`/`context`
messages "Invalid format sequence", "Invalid width {run}" and
"Invalid format character: {c}"). -/
inductive ParseError where
  | invalidFormatSequence
  | invalidWidth (run : List Nat)
  | invalidFormatCharacter (c : Nat)
  deriving DecidableEq, Repr

/-- A byte is a decimal digit (`!(c < b'0' || c > b'9')` in the Rust
source). -/
def isDigitB (c : Nat) : Bool :=
  decide (48 ≤ c ∧ c ≤ 57)

/-- The numeric value of a run of decimal digit bytes, as computed by
Rust's `str::parse` on an all-digit slice. -/
def natOfDigits (ds : List Nat) : Nat :=
  ds.foldl (fun n d => n * 10 + (d - 48)) 0

/-- The largest value of the Rust `usize` type on the 64-bit targets the
program is built for; `"…".parse::<usize>()` fails with an overflow error
for any larger decimal value. -/
def usizeMax : Nat :=
  2 ^ 64 - 1

/-- The scanning loop of `parse_positioning`, processed byte by byte.
`ds` is the digit run consumed since the last alignment byte (Rust finds
the position of the first non-digit and slices the run out in one step;
accumulating the same run byte-wise is equivalent and structurally
recursive).  At a non-digit byte the run is converted by `str::parse`
(failing beyond `usize::MAX`), its value pushed as the column width, and
the byte must be `<`, `>` or `=`; a run that reaches the end of the string
is the "Invalid format sequence" error. -/
def ppGo : DynVec Alignment → DynVec Nat → List Nat → List Nat →
    Except ParseError (DynVec Nat × DynVec Alignment)
  | al, mw, ds, [] =>
    match ds with
    | [] => .ok (mw, al)
    | _ :: _ => .error .invalidFormatSequence
  | al, mw, ds, c :: rest =>
    if isDigitB c then ppGo al mw (ds ++ [c]) rest
    else if natOfDigits ds ≤ usizeMax then
      if c == 60 then ppGo (al.push .Left) (mw.push (natOfDigits ds)) [] rest
      else if c == 62 then ppGo (al.push .Right) (mw.push (natOfDigits ds)) [] rest
      else if c == 61 then ppGo (al.push .Centered) (mw.push (natOfDigits ds)) [] rest
      else .error (.invalidFormatCharacter c)
    else .error (.invalidWidth ds)

/-- Model of `parse_positioning` (`src/main.rs`): runs the scanning loop
starting from left-aligned / width-0 defaults, then pushes one trailing
width-0 sentinel entry onto the width vector. -/
def parse_positioning (fmt : List Nat) : Except ParseError Positioning :=
  match ppGo (DynVec.new .Left) (DynVec.new 0) [] fmt with
  | .error e => .error e
  | .ok (mw, al) => .ok ⟨mw.push 0, al⟩

/-- The format-string grammar from the specification: zero or more
repetitions of an optional run of decimal digits followed by one
alignment character `<`, `>` or `=`. -/
inductive FmtGrammar : List Nat → Prop where
  | nil : FmtGrammar []
  | rep (ds : List Nat) (c : Nat) (rest : List Nat) :
      (∀ d ∈ ds, isDigitB d = true) → (c = 60 ∨ c = 62 ∨ c = 61) →
      FmtGrammar rest → FmtGrammar (ds ++ c :: rest)

/-- The format-string grammar refined with the width bound actually
enforced by `str::parse::<usize>`: as `FmtGrammar`, but every digit run
must also denote a value that fits in `usize`. -/
inductive FmtGrammarFit : List Nat → Prop where
  | nil : FmtGrammarFit []
  | rep (ds : List Nat) (c : Nat) (rest : List Nat) :
      (∀ d ∈ ds, isDigitB d = true) → natOfDigits ds ≤ usizeMax →
      (c = 60 ∨ c = 62 ∨ c = 61) → FmtGrammarFit rest → FmtGrammarFit (ds ++ c :: rest)

/-- The specification's description of which parse error is reported
where, scanning left to right with `ds` the pending digit run: a digit
run followed by end-of-string is the "invalid format sequence" error, an
over-`usize` run the "invalid width" error, and any other byte where an
alignment character is expected is reported as an invalid format
character; `none` means the string is well formed. -/
def fmtDiagnosis : List Nat → List Nat → Option ParseError
  | ds, [] => if ds.isEmpty then none else some .invalidFormatSequence
  | ds, c :: rest =>
    if isDigitB c then fmtDiagnosis (ds ++ [c]) rest
    else if natOfDigits ds ≤ usizeMax then
      if c == 60 || c == 62 || c == 61 then fmtDiagnosis [] rest
      else some (.invalidFormatCharacter c)
    else some (.invalidWidth ds)

/-- The measurement loop body of `read_as_unicode`: walk the words of one
line with their column indices, and raise each column's stored maximum
width when the measured width of the word exceeds it.  `wf` is the
display-width measurement (`unicode_width`'s `str::width`, external to the
repository), applied to a word's bytes. -/
def measureWords (wf : List Nat → Nat) : DynVec Nat → Nat → List (List Nat) → DynVec Nat
  | mw, _, [] => mw
  | mw, i, w :: ws =>
    measureWords wf (if wf w > mw.get i then mw.set i (wf w) else mw) (i + 1) ws

/-- Measurement over all tokenized lines, in input order. -/
def measureAll (wf : List Nat → Nat) (mw : DynVec Nat) (contentss : List (List (List Nat))) :
    DynVec Nat :=
  contentss.foldl (fun acc ws => measureWords wf acc 0 ws) mw

/-- Word contents of every input line, as produced by `Words::new` inside
`read_as_unicode`. -/
def tokenizeAll (delim untl : Nat) (input : List (List Nat)) : List (List (List Nat)) :=
  input.map (fun l => (Words.new l delim untl).contents)

/-- The final per-column maximum widths: measurement applied to the
tokenized input starting from the parsed positioning's width vector. -/
def measuredWidths (wf : List Nat → Nat) (delim untl : Nat) (mw0 : DynVec Nat)
    (input : List (List Nat)) : DynVec Nat :=
  measureAll wf mw0 (tokenizeAll delim untl input)

/-- Model of `opts.positioning.max_width.vec.iter().max().unwrap_or(&0)`:
the largest stored width (0 for an empty vector), which is the length of
the `padding` buffer of spaces allocated in `main`. -/
def maxPad (mw : DynVec Nat) : Nat :=
  mw.vec.foldr max 0

/-- The indentation: the leading run of space/tab bytes of the first input
line (`[]` when there is no input, in which case `main` returns before
using it). -/
def theIndent (input : List (List Nat)) : List Nat :=
  match input with
  | [] => []
  | l :: _ => l.takeWhile is_indent

/-- The bytes emitted for one word during rendering (`main`'s `while let`
loop body): `pad` is recomputed as `max_width.get(i) - width(word)`, the
spaces come from slicing the shared `padding` buffer, and the output
separator follows whenever another word remains on the line. -/
def renderFragment (wf : List Nat → Nat) (mw : DynVec Nat) (alv : DynVec Alignment)
    (padding sep : List Nat) (i : Nat) (word : List Nat) (hasNext : Bool) : List Nat :=
  let pad := mw.get i - wf word
  (match alv.get i with
   | .Left => word ++ (if hasNext then padding.take pad else [])
   | .Right => padding.take pad ++ word
   | .Centered =>
     padding.take (pad / 2) ++ word ++ (if hasNext then padding.take (pad - pad / 2) else []))
  ++ (if hasNext then sep else [])

/-- The rendering loop over one line's words: `i` is the column index of
the first word in `ws`, and the peek that decides `hasNext` is modelled by
matching on the tail. -/
def renderBody (wf : List Nat → Nat) (mw : DynVec Nat) (alv : DynVec Alignment)
    (padding sep : List Nat) : Nat → List (List Nat) → List Nat
  | _, [] => []
  | i, [w] => renderFragment wf mw alv padding sep i w false
  | i, w :: w' :: ws =>
    renderFragment wf mw alv padding sep i w true ++
      renderBody wf mw alv padding sep (i + 1) (w' :: ws)

/-- One rendered output line, without its trailing newline byte: the
indentation when the line has at least one word, followed by the rendered
words. -/
def renderLine (wf : List Nat → Nat) (mw : DynVec Nat) (alv : DynVec Alignment)
    (padding sep indent : List Nat) (ws : List (List Nat)) : List Nat :=
  (if ws.isEmpty then [] else indent) ++ renderBody wf mw alv padding sep 0 ws

/-- The full pipeline of `main` on already-split input lines: tokenize
every line, measure the per-column maximum widths, then render each line.
The result is the list of output lines; the emitted byte stream is each
line followed by one newline byte. -/
def formatrun (wf : List Nat → Nat) (delim untl : Nat) (p : Positioning) (sep : List Nat)
    (input : List (List Nat)) : List (List Nat) :=
  let contentss := tokenizeAll delim untl input
  let mw := measureAll wf p.max_width contentss
  let padding := List.replicate (maxPad mw) 32
  contentss.map (renderLine wf mw p.align padding sep (theIndent input))

/-- The `Positioning` value obtained from the empty (default) format
string: width vector `[0]` with default 0, empty alignment vector with
default `Left`. -/
def defaultPositioning : Positioning :=
  ⟨⟨[0], 0⟩, ⟨[], .Left⟩⟩

/-- The specification's rendering of a line's words (§4.5): exactly
`pad` trailing spaces for left alignment (suppressed after the last word),
exactly `pad` leading spaces for right alignment, `⌊pad/2⌋` leading and
`pad - ⌊pad/2⌋` trailing spaces for centering (trailing again suppressed
after the last word), with the separator between consecutive words and
never after the last. -/
def specRenderBody (wf : List Nat → Nat) (mw : DynVec Nat) (alv : DynVec Alignment)
    (sep : List Nat) : Nat → List (List Nat) → List Nat
  | _, [] => []
  | i, w :: ws =>
    let pad := mw.get i - wf w
    let hasNext := !ws.isEmpty
    ((match alv.get i with
      | .Left => w ++ (if hasNext then List.replicate pad 32 else [])
      | .Right => List.replicate pad 32 ++ w
      | .Centered =>
        List.replicate (pad / 2) 32 ++ w ++
          (if hasNext then List.replicate (pad - pad / 2) 32 else []))
     ++ (if hasNext then sep else [])) ++ specRenderBody wf mw alv sep (i + 1) ws

/-- Well-formedness of a span list produced from scan position `pos` in a
line of length `len`: every span is non-empty, within `[pos, len]`, spans
are strictly increasing and non-overlapping, and every span except the
last ends strictly before the end of the line. -/
def SpansOK (len : Nat) : Nat → List (Nat × Nat) → Prop
  | _, [] => True
  | pos, p :: rest =>
    pos ≤ p.1 ∧ p.1 < p.2 ∧ p.2 ≤ len ∧
      (rest = [] ∨ (p.2 < len ∧ SpansOK len p.2 rest))

/-- A word as produced by whitespace splitting: non-empty, starting with a
non-whitespace byte, containing no space or tab byte. -/
def GoodWord (w : List Nat) : Prop :=
  w ≠ [] ∧ isWs (w.headD 0) = false ∧ ∀ c ∈ w, c ≠ 32 ∧ c ≠ 9

theorem scanWord_le (delim : Nat) (esc strg : Bool) (l : List Nat) :
    scanWord delim esc strg l ≤ l.length := by
  induction l generalizing esc strg with
  | nil => simp [scanWord]
  | cons c rest ih =>
    rw [scanWord]
    split
    · simp
    · have := ih (stepFlags delim esc strg c).1 (stepFlags delim esc strg c).2
      simp only [List.length_cons]
      omega

theorem scanPlain_le (l : List Nat) : scanPlain l ≤ l.length := by
  induction l with
  | nil => simp [scanPlain]
  | cons c rest ih =>
    rw [scanPlain]
    split
    · simp
    · simp only [List.length_cons]
      omega

theorem not_space_tab_of_not_isWs {c : Nat} (h : isWs c = false) :
    (c == 32 || c == 9) = false := by
  have h9 : c ≠ 9 := by intro hc; subst hc; simp [isWs] at h
  have h32 : c ≠ 32 := by intro hc; subst hc; simp [isWs] at h
  simp [h9, h32]

theorem scanWord_pos (delim : Nat) {c : Nat} (rest : List Nat) (h : isWs c = false) :
    1 ≤ scanWord delim false false (c :: rest) := by
  rw [scanWord]
  rw [not_space_tab_of_not_isWs h]
  simp

theorem scanPlain_pos {c : Nat} (rest : List Nat) (h : isWs c = false) :
    1 ≤ scanPlain (c :: rest) := by
  rw [scanPlain]
  rw [not_space_tab_of_not_isWs h]
  simp

theorem skipWs_some (l : List Nat) (i : Nat) (h : skipWs l = some i) :
    i < l.length ∧ ∃ c t, l.drop i = c :: t ∧ isWs c = false := by
  induction l generalizing i with
  | nil => simp [skipWs] at h
  | cons c rest ih =>
    by_cases hc : isWs c
    · rw [skipWs, if_pos hc] at h
      rw [Option.map_eq_some'] at h
      obtain ⟨j, hj, rfl⟩ := h
      obtain ⟨hjl, d, t, hdt, hd⟩ := ih j hj
      refine ⟨by simpa using hjl, d, t, ?_, hd⟩
      simpa using hdt
    · rw [skipWs, if_neg hc] at h
      cases h
      exact ⟨by simp, c, rest, by simp, by simpa using hc⟩

theorem wordsGo_ne_nil {line : List Nat} {delim untl fuel pos n : Nat}
    (h : wordsGo line delim untl fuel pos n ≠ []) : pos < line.length := by
  cases fuel with
  | zero => simp [wordsGo] at h
  | succ f =>
    by_cases hp : pos < line.length
    · exact hp
    · rw [wordsGo, if_neg hp] at h
      exact absurd rfl h

theorem wordsGo_progress {line : List Nat} (delim : Nat) {pos i : Nat}
    (hp : pos < line.length) (hsk : skipWs (line.drop pos) = some i) :
    pos + i < line.length ∧
      pos + i + 1 ≤ pos + i + scanWord delim false false (line.drop (pos + i)) ∧
      pos + i + scanWord delim false false (line.drop (pos + i)) ≤ line.length := by
  obtain ⟨hil, c, t, hct, hc⟩ := skipWs_some _ _ hsk
  rw [List.length_drop] at hil
  have hslt : pos + i < line.length := by omega
  have hdd : line.drop (pos + i) = c :: t := by
    rw [← hct, List.drop_drop]
  constructor
  · exact hslt
  constructor
  · rw [hdd]
    have := scanWord_pos delim t hc
    omega
  · have hle := scanWord_le delim false false (line.drop (pos + i))
    rw [List.length_drop] at hle
    omega

theorem wordsGo_fuel (line : List Nat) (delim untl : Nat) :
    ∀ f1 f2 pos n, line.length - pos < f1 → line.length - pos < f2 →
      wordsGo line delim untl f1 pos n = wordsGo line delim untl f2 pos n := by
  intro f1
  induction f1 with
  | zero => intro f2 pos n h1; omega
  | succ f1 ih =>
    intro f2 pos n h1 h2
    cases f2 with
    | zero => omega
    | succ f2 =>
      rw [wordsGo, wordsGo]
      by_cases hp : pos < line.length
      · rw [if_pos hp, if_pos hp]
        cases hsk : skipWs (line.drop pos) with
        | none => rfl
        | some i =>
          dsimp only
          obtain ⟨hslt, hprog, hle⟩ := wordsGo_progress delim hp hsk
          by_cases hu : (n == untl) = true
          · rw [if_pos hu, if_pos hu]
          · rw [if_neg hu, if_neg hu]
            have hrec := ih f2 (pos + i + scanWord delim false false (line.drop (pos + i)))
              (n + 1) (by omega) (by omega)
            rw [hrec]
      · rw [if_neg hp, if_neg hp]

theorem wordsGo_len_le (line : List Nat) (delim untl : Nat) :
    ∀ fuel pos n, (wordsGo line delim untl fuel pos n).length ≤ line.length - pos := by
  intro fuel
  induction fuel with
  | zero => intro pos n; simp [wordsGo]
  | succ f ih =>
    intro pos n
    rw [wordsGo]
    by_cases hp : pos < line.length
    · rw [if_pos hp]
      cases hsk : skipWs (line.drop pos) with
      | none => simp
      | some i =>
        dsimp only
        obtain ⟨hslt, hprog, hle⟩ := wordsGo_progress delim hp hsk
        by_cases hu : (n == untl) = true
        · rw [if_pos hu]
          simp only [List.length_singleton]
          omega
        · rw [if_neg hu]
          simp only [List.length_cons]
          have := ih (pos + i + scanWord delim false false (line.drop (pos + i))) (n + 1)
          omega
    · rw [if_neg hp]
      simp

theorem wordsGo_spansOK (line : List Nat) (delim untl : Nat) :
    ∀ fuel pos n, SpansOK line.length pos (wordsGo line delim untl fuel pos n) := by
  intro fuel
  induction fuel with
  | zero => intro pos n; simp [wordsGo, SpansOK]
  | succ f ih =>
    intro pos n
    rw [wordsGo]
    by_cases hp : pos < line.length
    · rw [if_pos hp]
      cases hsk : skipWs (line.drop pos) with
      | none => simp [SpansOK]
      | some i =>
        dsimp only
        obtain ⟨hslt, hprog, hle⟩ := wordsGo_progress delim hp hsk
        by_cases hu : (n == untl) = true
        · rw [if_pos hu]
          exact ⟨by omega, by omega, le_refl _, Or.inl rfl⟩
        · rw [if_neg hu]
          refine ⟨by omega, by omega, hle, ?_⟩
          cases hrec : wordsGo line delim untl f
              (pos + i + scanWord delim false false (line.drop (pos + i))) (n + 1) with
          | nil => exact Or.inl rfl
          | cons q rest =>
            refine Or.inr ⟨?_, ?_⟩
            · exact wordsGo_ne_nil (hrec ▸ (by simp : (q :: rest : List (Nat × Nat)) ≠ []))
            · rw [← hrec]
              exact ih _ _
    · rw [if_neg hp]
      simp [SpansOK]

theorem spansOK_chain {len : Nat} :
    ∀ (spans : List (Nat × Nat)) (pos : Nat), SpansOK len pos spans →
      List.Chain' (fun a b => a.2 ≤ b.1) spans := by
  intro spans
  induction spans with
  | nil => intro pos h; simp
  | cons p rest ih =>
    intro pos h
    obtain ⟨h1, h2, h3, h4⟩ := h
    cases h4 with
    | inl hnil => subst hnil; simp
    | inr h4 =>
      obtain ⟨hlt, hok⟩ := h4
      cases rest with
      | nil => simp
      | cons q rest' =>
        rw [List.chain'_cons]
        exact ⟨hok.1, ih p.2 hok⟩

/-- Claim C10: the tokenizer loop of `Words::new` terminates on every
input: its fuel-indexed model computes the same span list for any fuel
beyond the line length (the scan position strictly increases past each
produced non-empty span), and the resulting word list is finite, with at
most one word per byte of the line. -/
theorem words_new_terminates_thm (line : List Nat) (delim untl f1 f2 : Nat)
    (h1 : line.length < f1) (h2 : line.length < f2) :
    wordsGo line delim untl f1 0 0 = wordsGo line delim untl f2 0 0 ∧
      (Words.new line delim untl).words.length ≤ line.length := by
  constructor
  · exact wordsGo_fuel line delim untl f1 f2 0 0 (by omega) (by omega)
  · have h := wordsGo_len_le line delim untl (line.length + 1) 0 0
    simpa [Words.new] using h

/-- Witness for `words_new_terminates_thm` at the line "a b" with fuels 5
and 77. -/
theorem words_new_terminates_witness :
    wordsGo [97, 32, 98] 34 9 5 0 0 = wordsGo [97, 32, 98] 34 9 77 0 0 ∧
      (Words.new [97, 32, 98] 34 9).words.length ≤ [97, 32, 98].length :=
  words_new_terminates_thm [97, 32, 98] 34 9 5 77 (by decide) (by decide)

/-- Claim C9: every span list produced by `Words::new` consists of
non-empty, in-bounds spans that are strictly increasing and pairwise
non-overlapping, and only the last span may extend to the end of the line
(`SpansOK`); consequently consecutive spans are ordered end-before-start
(`Chain'`). -/
theorem words_spans_invariant_thm (line : List Nat) (delim untl : Nat) :
    SpansOK line.length 0 (Words.new line delim untl).words ∧
      List.Chain' (fun a b => a.2 ≤ b.1) (Words.new line delim untl).words := by
  have h := wordsGo_spansOK line delim untl (line.length + 1) 0 0
  exact ⟨h, spansOK_chain _ 0 h⟩

/-- Claim C2: the escape/quote flag semantics of the word scan in
`Words::new`.  A delimiter byte seen while `esc` is set (immediately
preceded by an unescaped backslash) leaves the quote state unchanged; a
delimiter seen while `esc` is clear toggles it; after the two-byte
sequence backslash-backslash the `esc` flag is clear (escaping does not
chain), so a following delimiter toggles; in general a backslash byte sets
`esc` only when it is not itself escaped.  The last conjunct records that
`scanWord`, the tokenizer's byte scan, advances its flags exactly by
`stepFlags`. -/
theorem escape_semantics_thm (delim : Nat) (strg : Bool) :
    (stepFlags delim true strg delim).2 = strg ∧
    (stepFlags delim false strg delim).2 = !strg ∧
    (runFlags delim (false, strg) [92, 92]).1 = false ∧
    (∀ esc c, (stepFlags delim esc strg c).1 = (!esc && (c == 92))) ∧
    (delim ≠ 92 → (runFlags delim (false, strg) [92, 92, delim]).2 = !strg) ∧
    (∀ esc c rest,
      scanWord delim esc strg (c :: rest) =
        if !(stepFlags delim esc strg c).2 && (c == 32 || c == 9) then 0
        else 1 + scanWord delim (stepFlags delim esc strg c).1 (stepFlags delim esc strg c).2
          rest) := by
  refine ⟨by simp [stepFlags], by simp [stepFlags], by simp [runFlags, stepFlags], ?_, ?_, ?_⟩
  · intro esc c
    rfl
  · intro hd
    have h92 : (92 == delim) = false := by
      simp only [beq_eq_false_iff_ne, ne_eq]
      omega
    simp [runFlags, stepFlags, h92]
    omega
  · intro esc c rest
    rw [scanWord]

/-- Witness for `escape_semantics_thm`: with the default delimiter `"`
(byte 34), the run backslash-backslash-quote starting outside a string
ends inside one. -/
theorem escape_semantics_witness :
    (runFlags 34 (false, false) [92, 92, 34]).2 = !false :=
  (escape_semantics_thm 34 false).2.2.2.2.1 (by decide)

theorem align_not_digit {c : Nat} (hc : c = 60 ∨ c = 62 ∨ c = 61) : isDigitB c = false := by
  rcases hc with rfl | rfl | rfl <;> decide

theorem bool_eq_false_of_ne_true {b : Bool} (h : ¬b = true) : b = false := by
  cases b
  · rfl
  · exact absurd rfl h

theorem run_decomp {ds₀ : List Nat} : ∀ {ds : List Nat} {c₀ c : Nat} {r₀ r : List Nat},
    ds₀ ++ c₀ :: r₀ = ds ++ c :: r →
    (∀ d ∈ ds₀, isDigitB d = true) → (∀ d ∈ ds, isDigitB d = true) →
    isDigitB c₀ = false → isDigitB c = false →
    ds₀ = ds ∧ c₀ = c ∧ r₀ = r := by
  induction ds₀ with
  | nil =>
    intro ds c₀ c r₀ r h hd₀ hd hc₀ hc
    cases ds with
    | nil =>
      simp only [List.nil_append, List.cons.injEq] at h
      exact ⟨rfl, h.1, h.2⟩
    | cons d t =>
      simp only [List.nil_append, List.cons_append, List.cons.injEq] at h
      have hdig : isDigitB d = true := hd d (by simp)
      rw [← h.1, hc₀] at hdig
      cases hdig
  | cons d₀ t₀ ih =>
    intro ds c₀ c r₀ r h hd₀ hd hc₀ hc
    cases ds with
    | nil =>
      simp only [List.cons_append, List.nil_append, List.cons.injEq] at h
      have hdig : isDigitB d₀ = true := hd₀ d₀ (by simp)
      rw [h.1, hc] at hdig
      cases hdig
    | cons d t =>
      simp only [List.cons_append, List.cons.injEq] at h
      obtain ⟨rfl, h2⟩ := h
      obtain ⟨h1, h2, h3⟩ := ih h2 (fun x hx => hd₀ x (by simp [hx]))
        (fun x hx => hd x (by simp [hx])) hc₀ hc
      exact ⟨by rw [h1], h2, h3⟩

theorem fit_inv {w : List Nat} (h : FmtGrammarFit w) :
    w = [] ∨ ∃ ds c rest, w = ds ++ c :: rest ∧ (∀ d ∈ ds, isDigitB d = true) ∧
      natOfDigits ds ≤ usizeMax ∧ (c = 60 ∨ c = 62 ∨ c = 61) ∧ FmtGrammarFit rest := by
  cases h with
  | nil => exact Or.inl rfl
  | rep ds c rest hd hn hc hr => exact Or.inr ⟨ds, c, rest, rfl, hd, hn, hc, hr⟩

theorem fit_all_digits {ds : List Nat} (h : FmtGrammarFit ds)
    (hds : ∀ d ∈ ds, isDigitB d = true) : ds = [] := by
  cases h with
  | nil => rfl
  | rep ds₀ c rest hd hn hc hr =>
    have hmem : c ∈ ds₀ ++ c :: rest := by simp
    have hdig := hds c hmem
    rw [align_not_digit hc] at hdig
    cases hdig

theorem ppGo_diag : ∀ (fmt ds : List Nat) (al : DynVec Alignment) (mw : DynVec Nat),
    ((ppGo al mw ds fmt).isOk = true ↔ fmtDiagnosis ds fmt = none) ∧
      ∀ e, (ppGo al mw ds fmt = .error e ↔ fmtDiagnosis ds fmt = some e) := by
  intro fmt
  induction fmt with
  | nil =>
    intro ds al mw
    cases ds with
    | nil => simp [ppGo, fmtDiagnosis, Except.isOk, Except.toBool]
    | cons d t => simp [ppGo, fmtDiagnosis, Except.isOk, Except.toBool]
  | cons c rest ih =>
    intro ds al mw
    rw [ppGo, fmtDiagnosis]
    by_cases hc : isDigitB c = true
    · rw [if_pos hc, if_pos hc]
      exact ih (ds ++ [c]) al mw
    · rw [if_neg hc, if_neg hc]
      by_cases hn : natOfDigits ds ≤ usizeMax
      · rw [if_pos hn, if_pos hn]
        by_cases h60 : (c == 60) = true
        · have ha : (c == 60 || c == 62 || c == 61) = true := by simp [h60]
          rw [if_pos h60, if_pos ha]
          exact ih [] (al.push .Left) (mw.push (natOfDigits ds))
        · rw [if_neg h60]
          by_cases h62 : (c == 62) = true
          · have ha : (c == 60 || c == 62 || c == 61) = true := by simp [h62]
            rw [if_pos h62, if_pos ha]
            exact ih [] (al.push .Right) (mw.push (natOfDigits ds))
          · rw [if_neg h62]
            by_cases h61 : (c == 61) = true
            · have ha : (c == 60 || c == 62 || c == 61) = true := by simp [h61]
              rw [if_pos h61, if_pos ha]
              exact ih [] (al.push .Centered) (mw.push (natOfDigits ds))
            · have ha : (c == 60 || c == 62 || c == 61) = false := by
                rw [bool_eq_false_of_ne_true h60, bool_eq_false_of_ne_true h62,
                  bool_eq_false_of_ne_true h61]
                rfl
              rw [if_neg h61, if_neg (by simp [ha] : ¬(c == 60 || c == 62 || c == 61) = true)]
              simp [Except.isOk, Except.toBool]
      · rw [if_neg hn, if_neg hn]
        simp [Except.isOk, Except.toBool]

theorem diag_none_iff_fit : ∀ (fmt ds : List Nat), (∀ d ∈ ds, isDigitB d = true) →
    (fmtDiagnosis ds fmt = none ↔ FmtGrammarFit (ds ++ fmt)) := by
  intro fmt
  induction fmt with
  | nil =>
    intro ds hds
    rw [fmtDiagnosis, List.append_nil]
    by_cases hd : ds.isEmpty = true
    · rw [List.isEmpty_iff] at hd
      subst hd
      simp [FmtGrammarFit.nil]
    · rw [if_neg hd]
      simp only [reduceCtorEq, false_iff]
      intro hfit
      exact hd (by rw [fit_all_digits hfit hds]; rfl)
  | cons c rest ih =>
    intro ds hds
    rw [fmtDiagnosis]
    by_cases hc : isDigitB c = true
    · rw [if_pos hc]
      have hds' : ∀ d ∈ ds ++ [c], isDigitB d = true := by
        intro d hd
        rcases List.mem_append.mp hd with h | h
        · exact hds d h
        · simp at h; subst h; exact hc
      rw [ih (ds ++ [c]) hds', List.append_assoc]
      simp
    · have hc' : isDigitB c = false := bool_eq_false_of_ne_true hc
      rw [if_neg hc]
      by_cases hn : natOfDigits ds ≤ usizeMax
      · rw [if_pos hn]
        by_cases ha : (c == 60 || c == 62 || c == 61) = true
        · have haOr : c = 60 ∨ c = 62 ∨ c = 61 := by
            have h2 := ha
            simp only [Bool.or_eq_true, beq_iff_eq] at h2
            tauto
          rw [if_pos ha, ih [] (by simp), List.nil_append]
          constructor
          · intro hr
            exact FmtGrammarFit.rep ds c rest hds hn haOr hr
          · intro hfit
            rcases fit_inv hfit with hnil | ⟨ds₀, c₀, r₀, heq, hd₀, hn₀, hc₀, hr₀⟩
            · exact absurd hnil (List.append_ne_nil_of_right_ne_nil ds (by simp))
            · obtain ⟨he1, he2, he3⟩ :=
                run_decomp heq.symm hd₀ hds (align_not_digit hc₀) hc'
              rw [← he3]
              exact hr₀
        · rw [if_neg ha]
          simp only [reduceCtorEq, false_iff]
          intro hfit
          rcases fit_inv hfit with hnil | ⟨ds₀, c₀, r₀, heq, hd₀, hn₀, hc₀, hr₀⟩
          · exact absurd hnil (List.append_ne_nil_of_right_ne_nil ds (by simp))
          · obtain ⟨he1, he2, he3⟩ :=
              run_decomp heq.symm hd₀ hds (align_not_digit hc₀) hc'
            subst he2
            rcases hc₀ with rfl | rfl | rfl <;> simp at ha
      · rw [if_neg hn]
        simp only [reduceCtorEq, false_iff]
        intro hfit
        rcases fit_inv hfit with hnil | ⟨ds₀, c₀, r₀, heq, hd₀, hn₀, hc₀, hr₀⟩
        · exact absurd hnil (List.append_ne_nil_of_right_ne_nil ds (by simp))
        · obtain ⟨he1, he2, he3⟩ :=
            run_decomp heq.symm hd₀ hds (align_not_digit hc₀) hc'
          subst he1
          exact hn hn₀

/-- Claim C3, counterexample: the all-digit run `"999999999999999999999"`
(21 nines) followed by `<` matches the specification grammar
`(\d* [<>=])*`, yet `parse_positioning` rejects it, because
`str::parse::<usize>` fails on a width beyond `usize::MAX`.  So parsing
does not succeed for every grammar-conforming string. -/
theorem parse_positioning_grammar_cex :
    FmtGrammar (List.replicate 21 57 ++ [60]) ∧
      (parse_positioning (List.replicate 21 57 ++ [60])).isOk = false := by
  constructor
  · exact FmtGrammar.rep (List.replicate 21 57) 60 []
      (by intro d hd; rw [List.eq_of_mem_replicate hd]; rfl) (Or.inl rfl) FmtGrammar.nil
  · decide

/-- Claim C3 (amended): `parse_positioning` succeeds exactly on the
strings of the grammar `(\d* [<>=])*` whose digit runs each fit in
`usize` (`FmtGrammarFit`); on failure no `Positioning` value is produced
at all, and the reported error is exactly the one described by the
specification's error taxonomy extended with the overflow case
(`fmtDiagnosis`): a non-digit byte outside `<`, `>`, `=` where an
alignment character is expected is an invalid-format-character error, a
digit run meeting end-of-string is the invalid-format-sequence error, and
an over-`usize` digit run is an invalid-width error. -/
theorem parse_positioning_grammar_thm (fmt : List Nat) :
    ((parse_positioning fmt).isOk = true ↔ FmtGrammarFit fmt) ∧
      ∀ e, (parse_positioning fmt = .error e ↔ fmtDiagnosis [] fmt = some e) := by
  have h := ppGo_diag fmt [] (DynVec.new .Left) (DynVec.new 0)
  have hfit := diag_none_iff_fit fmt [] (by simp)
  rw [List.nil_append] at hfit
  rw [parse_positioning]
  cases hpp : ppGo (DynVec.new .Left) (DynVec.new 0) [] fmt with
  | error e =>
    rw [hpp] at h
    constructor
    · rw [← hfit, ← h.1]
      simp [Except.isOk, Except.toBool]
    · intro e'
      rw [← h.2 e']
      simp
  | ok mwal =>
    rw [hpp] at h
    constructor
    · rw [← hfit, ← h.1]
      simp [Except.isOk, Except.toBool]
    · intro e'
      rw [← h.2 e']
      simp

theorem DynVec.get_of_le {T : Type} (v : DynVec T) (i : Nat) (h : v.vec.length ≤ i) :
    v.get i = v.default := by
  rw [DynVec.get, if_neg (by omega)]

theorem ppGo_align_default : ∀ (fmt ds : List Nat) (al : DynVec Alignment) (mw : DynVec Nat)
    (res : DynVec Nat × DynVec Alignment),
    al.default = al.vec.getLastD .Left → ppGo al mw ds fmt = .ok res →
    res.2.default = res.2.vec.getLastD .Left := by
  intro fmt
  induction fmt with
  | nil =>
    intro ds al mw res hinv hok
    cases ds with
    | nil =>
      rw [ppGo] at hok
      cases hok
      exact hinv
    | cons d t =>
      rw [ppGo] at hok
      cases hok
  | cons c rest ih =>
    intro ds al mw res hinv hok
    rw [ppGo] at hok
    by_cases hc : isDigitB c = true
    · rw [if_pos hc] at hok
      exact ih _ _ _ _ hinv hok
    · rw [if_neg hc] at hok
      by_cases hn : natOfDigits ds ≤ usizeMax
      · rw [if_pos hn] at hok
        by_cases h60 : (c == 60) = true
        · rw [if_pos h60] at hok
          exact ih _ _ _ _ (by simp [DynVec.push, List.getLastD_concat]) hok
        · rw [if_neg h60] at hok
          by_cases h62 : (c == 62) = true
          · rw [if_pos h62] at hok
            exact ih _ _ _ _ (by simp [DynVec.push, List.getLastD_concat]) hok
          · rw [if_neg h62] at hok
            by_cases h61 : (c == 61) = true
            · rw [if_pos h61] at hok
              exact ih _ _ _ _ (by simp [DynVec.push, List.getLastD_concat]) hok
            · rw [if_neg h61] at hok
              cases hok
      · rw [if_neg hn] at hok
        cases hok

/-- Claim C5, counterexample: for the format string `"5<"` the single
explicitly configured column has width 5, but a column index beyond the
configured range reads back width 0 — the trailing sentinel pushed by
`parse_positioning` — not the width 5 of the last explicitly configured
column.  (The alignment vector, by contrast, does inherit the last
configured alignment.) -/
theorem dynvec_push_default_cex :
    (parse_positioning [53, 60]).toOption.map
        (fun p => (p.max_width.get 0, p.max_width.get 1)) = some (5, 0) ∧ (5 : Nat) ≠ 0 :=
  ⟨by decide, by decide⟩

/-- Claim C5 (amended): `DynVec::get` is total, returning the stored value
below the length and the current default otherwise; `DynVec::push`
appends at index equal to the current length and updates the default to
the pushed value.  Consequently, after parsing a format string, column
indices beyond the configured range read back the alignment of the last
explicitly configured column (the alignment vector's last entry), while
they read back width 0, because `parse_positioning` pushes a trailing
width-0 sentinel that overwrites the width default. -/
theorem dynvec_push_default_thm :
    (∀ (v : DynVec Nat) (i : Nat),
       (i < v.vec.length → v.get i = v.vec.getD i v.default) ∧
       (v.vec.length ≤ i → v.get i = v.default)) ∧
    (∀ (v : DynVec Nat) (x : Nat),
       (v.push x).vec.length = v.vec.length + 1 ∧ (v.push x).get v.vec.length = x ∧
         (v.push x).default = x) ∧
    (∀ (fmt : List Nat) (p : Positioning), parse_positioning fmt = .ok p →
       ∀ i, p.align.vec.length ≤ i →
         p.align.get i = p.align.vec.getLastD Alignment.Left) ∧
    (∀ (fmt : List Nat) (p : Positioning), parse_positioning fmt = .ok p →
       ∀ i, p.max_width.vec.length ≤ i → p.max_width.get i = 0) := by
  refine ⟨?_, ?_, ?_, ?_⟩
  · intro v i
    constructor
    · intro h
      rw [DynVec.get, if_pos h]
    · intro h
      exact DynVec.get_of_le v i h
  · intro v x
    refine ⟨by simp [DynVec.push], ?_, rfl⟩
    rw [DynVec.push, DynVec.get]
    simp only [List.length_append, List.length_singleton]
    rw [if_pos (by omega)]
    rw [List.getD_eq_getElem?_getD, List.getElem?_append]
    simp
  · intro fmt p hok i hi
    rw [parse_positioning] at hok
    cases hpp : ppGo (DynVec.new .Left) (DynVec.new 0) [] fmt with
    | error e =>
      rw [hpp] at hok
      cases hok
    | ok mwal =>
      rw [hpp] at hok
      cases hok
      have hdef := ppGo_align_default fmt [] (DynVec.new .Left) (DynVec.new 0) mwal rfl hpp
      rw [DynVec.get_of_le _ _ hi, hdef]
  · intro fmt p hok i hi
    rw [parse_positioning] at hok
    cases hpp : ppGo (DynVec.new .Left) (DynVec.new 0) [] fmt with
    | error e =>
      rw [hpp] at hok
      cases hok
    | ok mwal =>
      rw [hpp] at hok
      cases hok
      rw [DynVec.get_of_le _ _ hi]
      rfl

/-- Witness for `dynvec_push_default_thm`: the `get` contract on a
concrete vector, and the after-parse reads for the format string `">"`. -/
theorem dynvec_push_default_witness :
    DynVec.get (⟨[7], 9⟩ : DynVec Nat) 0 = List.getD [7] 0 9 ∧
    DynVec.get (⟨[7], 9⟩ : DynVec Nat) 4 = 9 ∧
    (Positioning.align ⟨⟨[0, 0], 0⟩, ⟨[Alignment.Right], Alignment.Right⟩⟩).get 3 =
      List.getLastD [Alignment.Right] Alignment.Left ∧
    (Positioning.max_width ⟨⟨[0, 0], 0⟩, ⟨[Alignment.Right], Alignment.Right⟩⟩).get 7 = 0 :=
  ⟨(dynvec_push_default_thm.1 ⟨[7], 9⟩ 0).1 (by decide),
   (dynvec_push_default_thm.1 ⟨[7], 9⟩ 4).2 (by decide),
   dynvec_push_default_thm.2.2.1 [62] _ rfl 3 (by decide),
   dynvec_push_default_thm.2.2.2 [62] _ rfl 7 (by decide)⟩

theorem DynVec.get_eq_getElem? {T : Type} (d : DynVec T) (i : Nat) :
    d.get i = (d.vec[i]?).getD d.default := by
  rw [DynVec.get, List.getD_eq_getElem?_getD]
  by_cases hi : i < d.vec.length
  · rw [if_pos hi]
  · rw [if_neg hi, List.getElem?_eq_none (by omega)]
    rfl

theorem DynVec.get_set {T : Type} (d : DynVec T) (j : Nat) (v : T) (i : Nat) :
    (d.set j v).get i = if i = j then v else d.get i := by
  have hvec : (d.set j v).vec = (if d.vec.length ≤ j then
      d.vec ++ List.replicate (j + 1 - d.vec.length) d.default else d.vec).set j v := rfl
  have hdef : (d.set j v).default = d.default := rfl
  rw [DynVec.get_eq_getElem?, DynVec.get_eq_getElem?, hvec, hdef, List.getElem?_set]
  by_cases hlen : d.vec.length ≤ j
  · rw [if_pos hlen]
    have hlen2 : (d.vec ++ List.replicate (j + 1 - d.vec.length) d.default).length = j + 1 := by
      simp [List.length_append, List.length_replicate]
      omega
    by_cases hij : j = i
    · subst hij
      rw [if_pos rfl, if_pos (by omega), if_pos rfl]
      rfl
    · rw [if_neg hij, if_neg (fun h => hij h.symm)]
      by_cases hil : i < d.vec.length
      · rw [List.getElem?_append_left hil]
      · rw [List.getElem?_append_right (by omega), List.getElem?_replicate]
        rw [List.getElem?_eq_none (by omega)]
        by_cases hrep : i - d.vec.length < j + 1 - d.vec.length
        · rw [if_pos hrep]
          rfl
        · rw [if_neg hrep]
  · rw [if_neg hlen]
    by_cases hij : j = i
    · subst hij
      rw [if_pos rfl, if_pos (by omega), if_pos rfl]
      rfl
    · rw [if_neg hij, if_neg (fun h => hij h.symm)]

theorem mem_le_foldr_max (x : Nat) (l : List Nat) (h : x ∈ l) : x ≤ l.foldr max 0 := by
  induction l with
  | nil => simp at h
  | cons a t ih =>
    rw [List.foldr_cons]
    rcases List.mem_cons.mp h with rfl | h
    · exact Nat.le_max_left _ _
    · exact le_trans (ih h) (Nat.le_max_right _ _)

theorem DynVec.get_le_maxPad (d : DynVec Nat) (h : d.default = 0) (i : Nat) :
    d.get i ≤ maxPad d := by
  rw [DynVec.get]
  by_cases hi : i < d.vec.length
  · rw [if_pos hi]
    have hmem : d.vec.getD i d.default ∈ d.vec := by
      rw [List.getD_eq_getElem?_getD, List.getElem?_eq_getElem hi]
      exact List.getElem_mem hi
    exact mem_le_foldr_max _ _ hmem
  · rw [if_neg hi, h]
    omega

theorem measureWords_default (wf : List Nat → Nat) :
    ∀ (ws : List (List Nat)) (mw : DynVec Nat) (k : Nat),
      (measureWords wf mw k ws).default = mw.default := by
  intro ws
  induction ws with
  | nil => intro mw k; rfl
  | cons w t ih =>
    intro mw k
    rw [measureWords, ih]
    by_cases h : wf w > mw.get k
    · rw [if_pos h]
      rfl
    · rw [if_neg h]

theorem measureAll_default (wf : List Nat → Nat) :
    ∀ (contentss : List (List (List Nat))) (mw : DynVec Nat),
      (measureAll wf mw contentss).default = mw.default := by
  intro contentss
  induction contentss with
  | nil => intro mw; rfl
  | cons L t ih =>
    intro mw
    rw [measureAll, List.foldl_cons]
    have := ih (measureWords wf mw 0 L)
    rw [measureAll] at this
    rw [this, measureWords_default]

theorem measureWords_get_le (wf : List Nat → Nat) :
    ∀ (ws : List (List Nat)) (mw : DynVec Nat) (k i : Nat),
      mw.get i ≤ (measureWords wf mw k ws).get i := by
  intro ws
  induction ws with
  | nil => intro mw k i; rw [measureWords]
  | cons w t ih =>
    intro mw k i
    rw [measureWords]
    refine le_trans ?_ (ih _ _ i)
    by_cases h : wf w > mw.get k
    · rw [if_pos h, DynVec.get_set]
      by_cases hik : i = k
      · subst hik
        rw [if_pos rfl]
        omega
      · rw [if_neg hik]
    · rw [if_neg h]

theorem measureWords_get_ge (wf : List Nat → Nat) :
    ∀ (ws : List (List Nat)) (mw : DynVec Nat) (k j : Nat), j < ws.length →
      wf (ws.getD j []) ≤ (measureWords wf mw k ws).get (k + j) := by
  intro ws
  induction ws with
  | nil => intro mw k j hj; simp at hj
  | cons w t ih =>
    intro mw k j hj
    cases j with
    | zero =>
      rw [List.getD_cons_zero, Nat.add_zero, measureWords]
      refine le_trans ?_ (measureWords_get_le wf t _ (k + 1) k)
      by_cases h : wf w > mw.get k
      · rw [if_pos h, DynVec.get_set, if_pos rfl]
      · rw [if_neg h]
        omega
    | succ j' =>
      rw [List.getD_cons_succ, measureWords]
      have := ih (if wf w > mw.get k then mw.set k (wf w) else mw) (k + 1) j'
        (by simpa using Nat.lt_of_succ_lt_succ (by simpa using hj))
      have harith : k + 1 + j' = k + (j' + 1) := by omega
      rw [harith] at this
      exact this

theorem measureAll_get_le (wf : List Nat → Nat) :
    ∀ (contentss : List (List (List Nat))) (mw : DynVec Nat) (i : Nat),
      mw.get i ≤ (measureAll wf mw contentss).get i := by
  intro contentss
  induction contentss with
  | nil => intro mw i; rw [measureAll]; simp
  | cons L t ih =>
    intro mw i
    rw [measureAll, List.foldl_cons]
    have h2 := ih (measureWords wf mw 0 L) i
    rw [measureAll] at h2
    exact le_trans (measureWords_get_le wf L mw 0 i) h2

theorem measureAll_get_ge (wf : List Nat → Nat) :
    ∀ (contentss : List (List (List Nat))) (mw : DynVec Nat) (ws : List (List Nat)),
      ws ∈ contentss → ∀ j, j < ws.length →
        wf (ws.getD j []) ≤ (measureAll wf mw contentss).get j := by
  intro contentss
  induction contentss with
  | nil => intro mw ws hws; simp at hws
  | cons L t ih =>
    intro mw ws hws j hj
    rw [measureAll, List.foldl_cons]
    rcases List.mem_cons.mp hws with rfl | hmem
    · have h1 := measureWords_get_ge wf ws mw 0 j hj
      rw [Nat.zero_add] at h1
      have h2 := measureAll_get_le wf t (measureWords wf mw 0 ws) j
      rw [measureAll] at h2
      exact le_trans h1 h2
    · have := ih (measureWords wf mw 0 L) ws hmem j hj
      rw [measureAll] at this
      exact this

/-- Claim C4: after measurement, the final column width `max_width.get i`
is at least the measured width of every word occurring at column `i` in
any tokenized line, so the padding computation `w - width(word)` cannot
underflow, and the resulting pad never exceeds the `padding` buffer of
`max(max_width.vec)` spaces; the out-of-bounds branch of the padding
slice is unreachable. -/
theorem measure_no_underflow_thm (wf : List Nat → Nat) (delim untl : Nat)
    (input : List (List Nat)) (mw0 : DynVec Nat) (h0 : mw0.default = 0)
    (ws : List (List Nat)) (hws : ws ∈ tokenizeAll delim untl input)
    (j : Nat) (hj : j < ws.length) :
    wf (ws.getD j []) ≤ (measuredWidths wf delim untl mw0 input).get j ∧
      (measuredWidths wf delim untl mw0 input).get j - wf (ws.getD j []) ≤
        (List.replicate (maxPad (measuredWidths wf delim untl mw0 input)) 32).length := by
  have h1 := measureAll_get_ge wf (tokenizeAll delim untl input) mw0 ws hws j hj
  have hdef : (measuredWidths wf delim untl mw0 input).default = 0 := by
    rw [measuredWidths, measureAll_default, h0]
  have h2 := DynVec.get_le_maxPad _ hdef j
  refine ⟨h1, ?_⟩
  rw [List.length_replicate]
  omega

/-- Witness for `measure_no_underflow_thm`: the line "a bb" measured with
byte length; the word "bb" at column 1 has width 2 = final column width,
pad 0. -/
theorem measure_no_underflow_witness :
    List.length (List.getD [[97], [98, 98]] 1 []) ≤
        (measuredWidths List.length 34 9 (DynVec.new 0) [[97, 32, 98, 98]]).get 1 ∧
      (measuredWidths List.length 34 9 (DynVec.new 0) [[97, 32, 98, 98]]).get 1 -
          List.length (List.getD [[97], [98, 98]] 1 []) ≤
        (List.replicate
          (maxPad (measuredWidths List.length 34 9 (DynVec.new 0) [[97, 32, 98, 98]])) 32).length :=
  measure_no_underflow_thm List.length 34 9 [[97, 32, 98, 98]] (DynVec.new 0) rfl
    [[97], [98, 98]] (by decide) 1 (by decide)

theorem take_replicate_of_le {n m : Nat} (a : Nat) (h : n ≤ m) :
    (List.replicate m a).take n = List.replicate n a := by
  rw [List.take_replicate, Nat.min_eq_left h]

theorem renderBody_eq_spec (wf : List Nat → Nat) (mw : DynVec Nat) (alv : DynVec Alignment)
    (sep : List Nat) (hdef : mw.default = 0) :
    ∀ (ws : List (List Nat)) (i : Nat),
      renderBody wf mw alv (List.replicate (maxPad mw) 32) sep i ws =
        specRenderBody wf mw alv sep i ws := by
  intro ws
  induction ws with
  | nil => intro i; rfl
  | cons w t ih =>
    intro i
    have hpad : mw.get i - wf w ≤ maxPad mw :=
      le_trans (Nat.sub_le _ _) (DynVec.get_le_maxPad mw hdef i)
    cases t with
    | nil =>
      rw [renderBody, specRenderBody, renderFragment]
      cases alv.get i with
      | Left => simp [specRenderBody]
      | Right => simp [specRenderBody, take_replicate_of_le 32 hpad]
      | Centered =>
        simp [specRenderBody, take_replicate_of_le 32 (le_trans (Nat.div_le_self _ _) hpad)]
    | cons w' t' =>
      rw [renderBody, specRenderBody, renderFragment, ih]
      cases alv.get i with
      | Left => simp [take_replicate_of_le 32 hpad]
      | Right => simp [take_replicate_of_le 32 hpad]
      | Centered =>
        simp [take_replicate_of_le 32 (le_trans (Nat.div_le_self _ _) hpad),
          take_replicate_of_le 32 (le_trans (Nat.sub_le _ _) hpad)]

/-- Claim C1: for the final measured column widths, the renderer emits,
for the word at column `i` with `pad = max_width.get i - width(word)`:
left alignment the word then exactly `pad` spaces only when another word
follows; right alignment exactly `pad` spaces then the word; centered
alignment `⌊pad/2⌋` spaces, the word, then `pad - ⌊pad/2⌋` spaces only
when another word follows; and the configured output separator exactly
between consecutive words — i.e. the implementation's padding-buffer
slicing (`renderBody`) coincides with the specification's rendering rule
(`specRenderBody`). -/
theorem render_padding_thm (wf : List Nat → Nat) (delim untl : Nat) (sep : List Nat)
    (input : List (List Nat)) (mw0 : DynVec Nat) (alv : DynVec Alignment)
    (h0 : mw0.default = 0) (ws : List (List Nat)) (i : Nat) :
    renderBody wf (measuredWidths wf delim untl mw0 input) alv
        (List.replicate (maxPad (measuredWidths wf delim untl mw0 input)) 32) sep i ws =
      specRenderBody wf (measuredWidths wf delim untl mw0 input) alv sep i ws := by
  apply renderBody_eq_spec
  rw [measuredWidths, measureAll_default, h0]

/-- Witness for `render_padding_thm`: right-aligned rendering of the words
of "a bb" measured by byte length. -/
theorem render_padding_witness :
    renderBody List.length (measuredWidths List.length 34 9 (DynVec.new 0) [[97, 32, 98, 98]])
        (DynVec.new Alignment.Right)
        (List.replicate (maxPad (measuredWidths List.length 34 9 (DynVec.new 0)
          [[97, 32, 98, 98]])) 32) [32] 0 [[97], [98, 98]] =
      specRenderBody List.length (measuredWidths List.length 34 9 (DynVec.new 0)
        [[97, 32, 98, 98]]) (DynVec.new Alignment.Right) [32] 0 [[97], [98, 98]] :=
  render_padding_thm List.length 34 9 [32] [[97, 32, 98, 98]] (DynVec.new 0)
    (DynVec.new Alignment.Right) rfl [[97], [98, 98]] 0

theorem getD_map_of_lt {α β : Type} (f : α → β) (l : List α) (j : Nat) (d : α) (d' : β)
    (h : j < l.length) : (l.map f).getD j d' = f (l.getD j d) := by
  rw [List.getD_eq_getElem?_getD, List.getD_eq_getElem?_getD, List.getElem?_map,
    List.getElem?_eq_getElem h]
  rfl

/-- Claim C7: the indentation is the leading space/tab run of the first
input line, captured once; every output line with at least one word
starts with it, and a line with zero words emits exactly one newline byte
with no indentation and no separator (its rendered line is empty). -/
theorem indentation_thm (wf : List Nat → Nat) (delim untl : Nat) (p : Positioning)
    (sep : List Nat) (input : List (List Nat)) (hne : input ≠ []) :
    (formatrun wf delim untl p sep input).length = input.length ∧
    theIndent input = (input.headD []).takeWhile is_indent ∧
    ∀ j, j < input.length →
      (((Words.new (input.getD j []) delim untl).contents = [] →
          (formatrun wf delim untl p sep input).getD j [] ++ [10] = [10]) ∧
       ((Words.new (input.getD j []) delim untl).contents ≠ [] →
          (formatrun wf delim untl p sep input).getD j [] =
            theIndent input ++
              renderBody wf (measuredWidths wf delim untl p.max_width input) p.align
                (List.replicate (maxPad (measuredWidths wf delim untl p.max_width input)) 32)
                sep 0 (Words.new (input.getD j []) delim untl).contents)) := by
  refine ⟨by simp [formatrun, tokenizeAll], ?_, ?_⟩
  · cases input with
    | nil => exact absurd rfl hne
    | cons l t => rfl
  · intro j hj
    have hlen1 : j < (tokenizeAll delim untl input).length := by
      simpa [tokenizeAll] using hj
    have hform : (formatrun wf delim untl p sep input).getD j [] =
        renderLine wf (measuredWidths wf delim untl p.max_width input) p.align
          (List.replicate (maxPad (measuredWidths wf delim untl p.max_width input)) 32)
          sep (theIndent input) ((tokenizeAll delim untl input).getD j []) := by
      rw [formatrun]
      exact getD_map_of_lt _ _ j [] [] hlen1
    have htok : (tokenizeAll delim untl input).getD j [] =
        (Words.new (input.getD j []) delim untl).contents := by
      rw [tokenizeAll]
      exact getD_map_of_lt _ _ j [] [] hj
    rw [hform, htok]
    constructor
    · intro hempty
      rw [hempty, renderLine]
      rfl
    · intro hnonempty
      rw [renderLine]
      have hfalse : ((Words.new (input.getD j []) delim untl).contents).isEmpty = false := by
        cases hcc : (Words.new (input.getD j []) delim untl).contents with
        | nil => exact absurd hcc hnonempty
        | cons a b => rfl
      rw [hfalse]
      rfl

/-- Witness for `indentation_thm`: input lines " a" and "" (the second has
no words); the second output line is exactly one newline. -/
theorem indentation_witness :
    (formatrun List.length 34 9 defaultPositioning [32] [[32, 97], []]).getD 1 [] ++ [10] =
      [10] :=
  ((indentation_thm List.length 34 9 defaultPositioning [32] [[32, 97], []]
    (by simp)).2.2 1 (by decide)).1 (by decide)

theorem scanWord_eq_scanPlain (delim : Nat) :
    ∀ (l : List Nat) (esc : Bool), delim ∉ l →
      scanWord delim esc false l = scanPlain l := by
  intro l
  induction l with
  | nil => intro esc h; rfl
  | cons c rest ih =>
    intro esc h
    have hc : (c == delim) = false := by
      simp only [beq_eq_false_iff_ne, ne_eq]
      intro hcd
      exact h (by simp [hcd])
    rw [scanWord, scanPlain]
    have hst2 : (stepFlags delim esc false c).2 = false := by
      rw [stepFlags]
      simp [hc]
    rw [hst2]
    simp only [Bool.not_false, Bool.true_and]
    by_cases hsp : (c == 32 || c == 9) = true
    · rw [if_pos hsp, if_pos hsp]
    · rw [if_neg hsp, if_neg hsp, ih _ (fun hm => h (by simp [hm]))]

theorem wordsGo_eq_plainGo (line : List Nat) (delim untl : Nat) (hd : delim ∉ line) :
    ∀ fuel pos n, wordsGo line delim untl fuel pos n = plainGo line untl fuel pos n := by
  intro fuel
  induction fuel with
  | zero => intro pos n; rfl
  | succ f ih =>
    intro pos n
    rw [wordsGo, plainGo]
    by_cases hp : pos < line.length
    · rw [if_pos hp, if_pos hp]
      cases hsk : skipWs (line.drop pos) with
      | none => rfl
      | some i =>
        dsimp only
        have hsub : delim ∉ line.drop (pos + i) := fun hm => hd (List.mem_of_mem_drop hm)
        rw [scanWord_eq_scanPlain delim _ false hsub]
        by_cases hu : (n == untl) = true
        · rw [if_pos hu, if_pos hu]
        · rw [if_neg hu, if_neg hu, ih]
    · rw [if_neg hp, if_neg hp]

/-- Claim C6, counterexample: with the delimiter configured as the
null/zero character, a line that itself contains a NUL byte does toggle
the in-string state — the byte comparison `c == 0` succeeds on the NUL
byte.  On the line "a\x00 b" the tokenizer yields one single word
spanning the whole line, while plain whitespace splitting yields two
words. -/
theorem null_delim_cex :
    (Words.new [97, 0, 32, 98] 0 1000).words = [(0, 4)] ∧
      plainGo [97, 0, 32, 98] 1000 5 0 0 = [(0, 2), (3, 4)] ∧
      (Words.new [97, 0, 32, 98] 0 1000).words ≠ plainGo [97, 0, 32, 98] 1000 5 0 0 :=
  ⟨by decide, by decide, by decide⟩

/-- Claim C6 (amended): when the string delimiter is the null/zero
character, tokenization coincides with plain whitespace splitting for
every input line that contains no NUL byte (equivalently, for any
delimiter byte that occurs nowhere in the line): the in-string state then
never becomes true because no byte comparison against the delimiter
succeeds. -/
theorem null_delim_thm (line : List Nat) (untl : Nat) (h0 : 0 ∉ line) :
    (Words.new line 0 untl).words = plainGo line untl (line.length + 1) 0 0 :=
  wordsGo_eq_plainGo line 0 untl h0 (line.length + 1) 0 0

/-- Witness for `null_delim_thm` on the NUL-free line "a b". -/
theorem null_delim_witness :
    (Words.new [97, 32, 98] 0 9).words = plainGo [97, 32, 98] 9 4 0 0 :=
  null_delim_thm [97, 32, 98] 9 (by decide)

theorem drop_isEmpty_false {line : List Nat} {pos : Nat} (h : pos < line.length) :
    (line.drop pos).isEmpty = false := by
  cases hd : line.drop pos with
  | nil =>
    have hlen := List.length_drop pos line
    rw [hd] at hlen
    simp at hlen
    omega
  | cons a t => rfl

theorem drop_isEmpty_true {line : List Nat} {pos : Nat} (h : ¬pos < line.length) :
    (line.drop pos).isEmpty = true := by
  rw [List.drop_eq_nil_of_le (by omega)]
  rfl

theorem plainGo_contents (line : List Nat) (untl : Nat) :
    ∀ fuel pos n,
      (plainGo line untl fuel pos n).map (fun p => (line.drop p.1).take (p.2 - p.1)) =
        wordsRecU untl fuel (line.drop pos) n := by
  intro fuel
  induction fuel with
  | zero => intro pos n; rfl
  | succ f ih =>
    intro pos n
    rw [plainGo, wordsRecU]
    by_cases hp : pos < line.length
    · rw [if_pos hp, drop_isEmpty_false hp]
      rw [if_neg (by simp)]
      cases hsk : skipWs (line.drop pos) with
      | none => rfl
      | some i =>
        dsimp only
        have hdd : (line.drop pos).drop i = line.drop (pos + i) := by
          rw [List.drop_drop]
        by_cases hu : (n == untl) = true
        · rw [if_pos hu, if_pos hu]
          rw [List.map_singleton]
          rw [hdd]
          have hlen : (line.drop (pos + i)).length = line.length - (pos + i) :=
            List.length_drop _ _
          rw [← hlen, List.take_length]
        · rw [if_neg hu, if_neg hu]
          rw [List.map_cons]
          rw [hdd]
          have harith : pos + i + scanPlain (line.drop (pos + i)) - (pos + i) =
              scanPlain (line.drop (pos + i)) := Nat.add_sub_cancel_left _ _
          rw [harith]
          have htail : (line.drop (pos + i)).drop (scanPlain (line.drop (pos + i))) =
              line.drop (pos + i + scanPlain (line.drop (pos + i))) := by
            rw [List.drop_drop]
          rw [htail, ih (pos + i + scanPlain (line.drop (pos + i))) (n + 1)]
    · rw [if_neg hp, drop_isEmpty_true hp]
      rw [if_pos rfl]
      rfl

theorem wordsRec_fuel : ∀ f1 f2 (l : List Nat), l.length < f1 → l.length < f2 →
    wordsRec f1 l = wordsRec f2 l := by
  intro f1
  induction f1 with
  | zero => intro f2 l h1 h2; omega
  | succ f1 ih =>
    intro f2 l h1 h2
    cases f2 with
    | zero => omega
    | succ f2 =>
      rw [wordsRec, wordsRec]
      cases hsk : skipWs l with
      | none => rfl
      | some i =>
        dsimp only
        obtain ⟨hil, c, t, hct, hc⟩ := skipWs_some l i hsk
        have hscan : 1 ≤ scanPlain (l.drop i) := by
          rw [hct]
          exact scanPlain_pos t hc
        have hlen : ((l.drop i).drop (scanPlain (l.drop i))).length < l.length := by
          have ha := List.length_drop i l
          have hb := List.length_drop (scanPlain (l.drop i)) (l.drop i)
          omega
        rw [ih f2 _ (by omega) (by omega)]

theorem wordsRecU_eq_wordsRec (untl : Nat) : ∀ fuel (l : List Nat) (n : Nat),
    n + (wordsRec fuel l).length ≤ untl → wordsRecU untl fuel l n = wordsRec fuel l := by
  intro fuel
  induction fuel with
  | zero => intro l n h; rfl
  | succ f ih =>
    intro l n h
    rw [wordsRecU, wordsRec]
    by_cases hemp : l.isEmpty = true
    · rw [if_pos hemp]
      rw [List.isEmpty_iff] at hemp
      subst hemp
      rfl
    · rw [if_neg hemp]
      cases hsk : skipWs l with
      | none => rfl
      | some i =>
        dsimp only
        rw [wordsRec, hsk] at h
        dsimp only at h
        rw [List.length_cons] at h
        have hne : (n == untl) = false := by
          simp only [beq_eq_false_iff_ne, ne_eq]
          omega
        rw [hne]
        rw [if_neg (by simp)]
        congr 1
        apply ih
        omega

theorem words_contents_eq_wordsR (line : List Nat) (delim untl : Nat)
    (hd : delim ∉ line) (hu : (wordsR line).length ≤ untl) :
    (Words.new line delim untl).contents = wordsR line := by
  show (wordsGo line delim untl (line.length + 1) 0 0).map
      (fun p => (line.drop p.1).take (p.2 - p.1)) = wordsR line
  rw [wordsGo_eq_plainGo line delim untl hd]
  rw [plainGo_contents line untl (line.length + 1) 0 0]
  rw [List.drop_zero]
  exact wordsRecU_eq_wordsRec untl (line.length + 1) line 0 (by simpa [wordsR] using hu)

theorem is_indent_isWs {c : Nat} (h : is_indent c = true) : isWs c = true := by
  simp only [is_indent, Bool.or_eq_true, beq_iff_eq] at h
  rcases h with rfl | rfl <;> rfl

theorem scanPlain_no_space_tab : ∀ (w z : List Nat), (∀ c ∈ w, c ≠ 32 ∧ c ≠ 9) →
    (z = [] ∨ ∃ t, z = 32 :: t) → scanPlain (w ++ z) = w.length := by
  intro w
  induction w with
  | nil =>
    intro z h hz
    rcases hz with rfl | ⟨t, rfl⟩
    · rfl
    · rfl
  | cons a w' ih =>
    intro z h hz
    rw [List.cons_append, scanPlain]
    have ha := h a (by simp)
    have hcond : (a == 32 || a == 9) = false := by simp [ha.1, ha.2]
    rw [hcond]
    rw [if_neg (by simp)]
    rw [ih z (fun c hc => h c (by simp [hc])) hz]
    simp only [List.length_cons]
    omega

theorem scanPlain_take_mem : ∀ (l : List Nat) (c : Nat), c ∈ l.take (scanPlain l) →
    c ≠ 32 ∧ c ≠ 9 := by
  intro l
  induction l with
  | nil => intro c h; simp at h
  | cons a t ih =>
    intro c h
    rw [scanPlain] at h
    by_cases hcond : (a == 32 || a == 9) = true
    · rw [if_pos hcond] at h
      simp at h
    · rw [if_neg hcond] at h
      rw [Nat.add_comm, List.take_succ_cons] at h
      rcases List.mem_cons.mp h with rfl | h
      · simpa using hcond
      · exact ih c h

theorem wordsRec_good : ∀ fuel (l w : List Nat), w ∈ wordsRec fuel l → GoodWord w := by
  intro fuel
  induction fuel with
  | zero => intro l w h; simp [wordsRec] at h
  | succ f ih =>
    intro l w h
    rw [wordsRec] at h
    cases hsk : skipWs l with
    | none =>
      rw [hsk] at h
      simp at h
    | some i =>
      rw [hsk] at h
      dsimp only at h
      rcases List.mem_cons.mp h with rfl | h
      · obtain ⟨hil, c, t, hct, hc⟩ := skipWs_some l i hsk
        rw [hct]
        have hsp : scanPlain (c :: t) = scanPlain t + 1 := by
          rw [scanPlain, not_space_tab_of_not_isWs hc]
          rw [if_neg (by simp)]
          omega
        rw [hsp, List.take_succ_cons]
        refine ⟨by simp, by simpa using hc, ?_⟩
        intro x hx
        rcases List.mem_cons.mp hx with rfl | hx
        · simpa using not_space_tab_of_not_isWs hc
        · refine scanPlain_take_mem t x ?_
          exact hx
      · exact ih _ w h

theorem wordsRec_mem_bytes : ∀ fuel (l w : List Nat), w ∈ wordsRec fuel l →
    ∀ c ∈ w, c ∈ l := by
  intro fuel
  induction fuel with
  | zero => intro l w h; simp [wordsRec] at h
  | succ f ih =>
    intro l w h c hc
    rw [wordsRec] at h
    cases hsk : skipWs l with
    | none =>
      rw [hsk] at h
      simp at h
    | some i =>
      rw [hsk] at h
      dsimp only at h
      rcases List.mem_cons.mp h with rfl | h
      · exact List.mem_of_mem_drop (List.mem_of_mem_take hc)
      · have := ih _ w h c hc
        exact List.mem_of_mem_drop (List.mem_of_mem_drop this)

theorem skipWs_append_ws : ∀ (pre l : List Nat), (∀ c ∈ pre, isWs c = true) →
    skipWs (pre ++ l) = (skipWs l).map (· + pre.length) := by
  intro pre
  induction pre with
  | nil =>
    intro l h
    simp only [List.nil_append, List.length_nil]
    cases skipWs l <;> simp
  | cons a t ih =>
    intro l h
    rw [List.cons_append, skipWs, if_pos (h a (by simp)), ih l (fun c hc => h c (by simp [hc]))]
    cases skipWs l with
    | none => rfl
    | some j =>
      simp only [Option.map_some', List.length_cons]
      exact congrArg some (by omega)

theorem wordsRec_word_step (w z : List Nat) (hw : GoodWord w)
    (hz : z = [] ∨ ∃ t, z = 32 :: t) : wordsR (w ++ z) = w :: wordsR z := by
  obtain ⟨hne, hhead, hmem⟩ := hw
  cases w with
  | nil => exact absurd rfl hne
  | cons a w' =>
    rw [wordsR, wordsRec]
    have hha : isWs a = false := by simpa using hhead
    have hsk : skipWs (a :: w' ++ z) = some 0 := by
      rw [List.cons_append, skipWs, if_neg (by simp [hha])]
    rw [hsk]
    dsimp only
    rw [List.drop_zero]
    have hscan : scanPlain (a :: w' ++ z) = (a :: w').length :=
      scanPlain_no_space_tab (a :: w') z hmem hz
    rw [hscan, List.take_left, List.drop_left]
    congr 1
    apply wordsRec_fuel
    · simp only [List.length_cons, List.length_append]
      omega
    · omega

theorem wordsR_ws_pre (pre l : List Nat) (h : ∀ c ∈ pre, isWs c = true) :
    wordsR (pre ++ l) = wordsR l := by
  rw [wordsR, wordsR, wordsRec, wordsRec]
  rw [skipWs_append_ws pre l h]
  cases hsk : skipWs l with
  | none => rfl
  | some i =>
    simp only [Option.map_some']
    have hdrop : (pre ++ l).drop (i + pre.length) = l.drop i := by
      rw [Nat.add_comm]
      exact List.drop_append i
    rw [hdrop]
    obtain ⟨hil, c, t, hct, hc⟩ := skipWs_some l i hsk
    have hscan : 1 ≤ scanPlain (l.drop i) := by
      rw [hct]
      exact scanPlain_pos t hc
    have hlen : ((l.drop i).drop (scanPlain (l.drop i))).length < l.length := by
      have ha := List.length_drop i l
      have hb := List.length_drop (scanPlain (l.drop i)) (l.drop i)
      omega
    congr 1
    apply wordsRec_fuel
    · simp only [List.length_append]
      omega
    · omega

theorem DynVec.get_nil {T : Type} (d : T) (i : Nat) : DynVec.get ⟨[], d⟩ i = d := by
  rw [DynVec.get, if_neg (by simp)]

theorem renderFragment_mem (wf : List Nat → Nat) (mw : DynVec Nat) (alv : DynVec Alignment)
    (padding sep : List Nat) (i : Nat) (w : List Nat) (hn : Bool) (c : Nat)
    (h : c ∈ renderFragment wf mw alv padding sep i w hn) : c ∈ w ∨ c ∈ padding ∨ c ∈ sep := by
  have hp : ∀ n : Nat, c ∈ padding.take n → c ∈ padding := fun n hh => List.mem_of_mem_take hh
  rw [renderFragment] at h
  rcases List.mem_append.mp h with h | h
  · cases halv : alv.get i <;> rw [halv] at h <;> cases hn <;> simp at h <;> tauto
  · cases hn <;> simp at h <;> tauto

theorem renderBody_mem (wf : List Nat → Nat) (mw : DynVec Nat) (alv : DynVec Alignment)
    (padding sep : List Nat) :
    ∀ (ws : List (List Nat)) (i c : Nat), c ∈ renderBody wf mw alv padding sep i ws →
      (∃ w ∈ ws, c ∈ w) ∨ c ∈ padding ∨ c ∈ sep := by
  intro ws
  induction ws with
  | nil => intro i c h; simp [renderBody] at h
  | cons w t ih =>
    intro i c h
    cases t with
    | nil =>
      rw [renderBody] at h
      rcases renderFragment_mem wf mw alv padding sep i w false c h with h | h
      · exact Or.inl ⟨w, by simp, h⟩
      · exact Or.inr h
    | cons w' t' =>
      rw [renderBody] at h
      rcases List.mem_append.mp h with h | h
      · rcases renderFragment_mem wf mw alv padding sep i w true c h with h | h
        · exact Or.inl ⟨w, by simp, h⟩
        · exact Or.inr h
      · rcases ih (i + 1) c h with ⟨u, hu, hcu⟩ | h
        · exact Or.inl ⟨u, by simp [hu], hcu⟩
        · exact Or.inr h

theorem wordsR_renderBody_left (wf : List Nat → Nat) (mw : DynVec Nat) (P : Nat) :
    ∀ (ws : List (List Nat)) (i : Nat), (∀ w ∈ ws, GoodWord w) →
      wordsR (renderBody wf mw ⟨[], Alignment.Left⟩ (List.replicate P 32) [32] i ws) = ws := by
  intro ws
  induction ws with
  | nil => intro i h; rfl
  | cons w t ih =>
    intro i h
    have hw : GoodWord w := h w (by simp)
    cases t with
    | nil =>
      have hbody : renderBody wf mw ⟨[], Alignment.Left⟩ (List.replicate P 32) [32] i [w]
          = w := by
        rw [renderBody, renderFragment, DynVec.get_nil]
        simp
      rw [hbody]
      have hstep := wordsRec_word_step w [] hw (Or.inl rfl)
      rw [List.append_nil] at hstep
      rw [hstep]
      rfl
    | cons w' t' =>
      have hfrag : renderFragment wf mw ⟨[], Alignment.Left⟩ (List.replicate P 32) [32] i w
          true = (w ++ (List.replicate P 32).take (mw.get i - wf w)) ++ [32] := by
        rw [renderFragment, DynVec.get_nil]
        simp
      rw [renderBody, hfrag]
      rw [List.append_assoc, List.append_assoc]
      have hz : ([32] : List Nat) ++
          renderBody wf mw ⟨[], Alignment.Left⟩ (List.replicate P 32) [32] (i + 1) (w' :: t') =
          32 :: renderBody wf mw ⟨[], Alignment.Left⟩ (List.replicate P 32) [32] (i + 1)
            (w' :: t') := rfl
      rw [hz, List.take_replicate]
      rw [wordsRec_word_step w _ hw ?hcase]
      case hcase =>
        cases hmin : min (mw.get i - wf w) P with
        | zero =>
          right
          exact ⟨_, rfl⟩
        | succ m =>
          right
          rw [List.replicate_succ]
          exact ⟨_, rfl⟩
      congr 1
      have hgrp : (List.replicate (min (mw.get i - wf w) P) 32 : List Nat) ++
          (32 :: renderBody wf mw ⟨[], Alignment.Left⟩ (List.replicate P 32) [32] (i + 1)
            (w' :: t')) =
          (List.replicate (min (mw.get i - wf w) P) 32 ++ [32]) ++
            renderBody wf mw ⟨[], Alignment.Left⟩ (List.replicate P 32) [32] (i + 1)
              (w' :: t') := by
        rw [List.append_assoc]
        rfl
      rw [hgrp]
      rw [wordsR_ws_pre _ _ ?hpre]
      case hpre =>
        intro c hc
        rcases List.mem_append.mp hc with hc | hc
        · rw [List.eq_of_mem_replicate hc]
          rfl
        · simp at hc
          rw [hc]
          rfl
      exact ih (i + 1) (fun u hu => h u (by simp [hu]))

theorem wordsR_renderLine_left (wf : List Nat → Nat) (mw : DynVec Nat) (P : Nat)
    (indent : List Nat) (hind : ∀ c ∈ indent, isWs c = true) (ws : List (List Nat))
    (hws : ∀ w ∈ ws, GoodWord w) :
    wordsR (renderLine wf mw ⟨[], Alignment.Left⟩ (List.replicate P 32) [32] indent ws) =
      ws := by
  cases ws with
  | nil => rfl
  | cons w t =>
    rw [renderLine]
    have hemp : ((w :: t : List (List Nat)).isEmpty) = false := rfl
    rw [hemp]
    rw [if_neg (by simp)]
    rw [wordsR_ws_pre indent _ hind]
    exact wordsR_renderBody_left wf mw P (w :: t) 0 hws

theorem mem_of_mem_takeWhile {p : Nat → Bool} {l : List Nat} {x : Nat}
    (h : x ∈ l.takeWhile p) : x ∈ l := by
  induction l with
  | nil => simp [List.takeWhile] at h
  | cons a t ih =>
    rw [List.takeWhile_cons] at h
    by_cases hp : p a = true
    · rw [if_pos hp] at h
      rcases List.mem_cons.mp h with rfl | h
      · simp
      · simp [ih h]
    · rw [if_neg hp] at h
      simp at h

theorem takeWhile_all {p : Nat → Bool} : ∀ (l : List Nat), (∀ c ∈ l, p c = true) →
    l.takeWhile p = l := by
  intro l
  induction l with
  | nil => intro h; rfl
  | cons a t ih =>
    intro h
    rw [List.takeWhile_cons, if_pos (h a (by simp)), ih (fun c hc => h c (by simp [hc]))]

theorem takeWhile_word_append {p : Nat → Bool} (pre w r : List Nat)
    (hpre : ∀ c ∈ pre, p c = true) (hw : w ≠ []) (hhead : p (w.headD 0) = false) :
    (pre ++ (w ++ r)).takeWhile p = pre := by
  rw [List.takeWhile_append]
  rw [if_pos (by rw [takeWhile_all pre hpre])]
  cases w with
  | nil => exact absurd rfl hw
  | cons a w' =>
    simp only [List.headD_cons] at hhead
    rw [List.cons_append, List.takeWhile_cons, if_neg (by simp [hhead]), List.append_nil]

theorem renderBody_left_cons (wf : List Nat → Nat) (mw : DynVec Nat) (P : Nat)
    (w : List Nat) (t : List (List Nat)) (i : Nat) :
    ∃ r, renderBody wf mw ⟨[], Alignment.Left⟩ (List.replicate P 32) [32] i (w :: t) =
      w ++ r := by
  cases t with
  | nil =>
    refine ⟨[], ?_⟩
    rw [renderBody, renderFragment, DynVec.get_nil]
    simp
  | cons w' t' =>
    refine ⟨(List.replicate P 32).take (mw.get i - wf w) ++ [32] ++
      renderBody wf mw ⟨[], Alignment.Left⟩ (List.replicate P 32) [32] (i + 1) (w' :: t'), ?_⟩
    rw [renderBody, renderFragment, DynVec.get_nil]
    simp [List.append_assoc]

theorem tokenizeAll_eq_wordsR (delim untl : Nat) (input : List (List Nat))
    (hdelim : ∀ l ∈ input, delim ∉ l) (huntl : ∀ l ∈ input, (wordsR l).length ≤ untl) :
    tokenizeAll delim untl input = input.map wordsR := by
  rw [tokenizeAll]
  exact List.map_congr_left
    (fun l hl => words_contents_eq_wordsR l delim untl (hdelim l hl) (huntl l hl))

theorem formatrun_eq (wf : List Nat → Nat) (delim untl : Nat) (p : Positioning)
    (sep : List Nat) (input : List (List Nat)) :
    formatrun wf delim untl p sep input =
      (tokenizeAll delim untl input).map
        (renderLine wf (measureAll wf p.max_width (tokenizeAll delim untl input)) p.align
          (List.replicate
            (maxPad (measureAll wf p.max_width (tokenizeAll delim untl input))) 32)
          sep (theIndent input)) := rfl

theorem rendered_line_roundtrip (wf : List Nat → Nat) (delim untl : Nat)
    (mw : DynVec Nat) (ind : List Nat) (l : List Nat)
    (hindWs : ∀ c ∈ ind, isWs c = true)
    (hinddelim : delim ∉ ind)
    (hldelim : delim ∉ l) (hd32 : delim ≠ 32)
    (huntl : (wordsR l).length ≤ untl) :
    (Words.new (renderLine wf mw ⟨[], Alignment.Left⟩
        (List.replicate (maxPad mw) 32) [32] ind (wordsR l)) delim untl).contents =
      wordsR l := by
  have hg : ∀ w ∈ wordsR l, GoodWord w := fun w hw => wordsRec_good _ l w hw
  have hround : wordsR (renderLine wf mw ⟨[], Alignment.Left⟩
      (List.replicate (maxPad mw) 32) [32] ind (wordsR l)) = wordsR l :=
    wordsR_renderLine_left wf mw (maxPad mw) ind hindWs (wordsR l) hg
  have hdelim2 : delim ∉ renderLine wf mw ⟨[], Alignment.Left⟩
      (List.replicate (maxPad mw) 32) [32] ind (wordsR l) := by
    intro hmem
    rw [renderLine] at hmem
    rcases List.mem_append.mp hmem with hmem | hmem
    · by_cases he : (wordsR l).isEmpty = true
      · rw [if_pos he] at hmem
        simp at hmem
      · rw [if_neg he] at hmem
        exact hinddelim hmem
    · rcases renderBody_mem wf mw _ _ _ (wordsR l) 0 delim hmem with ⟨w, hw, hdw⟩ | hmem | hmem
      · exact hldelim (wordsRec_mem_bytes _ l w hw delim hdw)
      · exact hd32 (List.eq_of_mem_replicate hmem)
      · simp at hmem
        exact hd32 hmem
  have huntl2 : (wordsR (renderLine wf mw ⟨[], Alignment.Left⟩
      (List.replicate (maxPad mw) 32) [32] ind (wordsR l))).length ≤ untl := by
    rw [hround]
    exact huntl
  rw [words_contents_eq_wordsR _ delim untl hdelim2 huntl2, hround]

/-- Claim C8, counterexample: on the two input lines " " (one space, no
words) and "a", the formatter is not idempotent.  The first run captures
the indentation " " from the first line, but emits that line as an empty
line (no words); the second run therefore captures an empty indentation
and drops the leading space before "a". -/
theorem format_idempotent_cex :
    formatrun List.length 34 1000 defaultPositioning [32]
        (formatrun List.length 34 1000 defaultPositioning [32] [[32], [97]]) ≠
      formatrun List.length 34 1000 defaultPositioning [32] [[32], [97]] := by
  decide

/-- Claim C8 (amended): with the default configuration (all columns
left-aligned, single-space separator, width vector `[0]` with default 0),
a column limit no line reaches, and a delimiter byte that occurs in no
input line and is not the space byte (so that it also matches no byte of
the first run's output), the pipeline is idempotent on its own output —
provided additionally that the first input line either contains at least
one word or has no leading indentation, since otherwise the captured
indentation is lost on the wordless first output line. -/
theorem format_idempotent_thm (wf : List Nat → Nat) (delim untl : Nat)
    (input : List (List Nat))
    (hdelim : ∀ l ∈ input, delim ∉ l) (hd32 : delim ≠ 32)
    (huntl : ∀ l ∈ input, (wordsR l).length ≤ untl)
    (hfirst : wordsR (input.headD []) ≠ [] ∨ (input.headD []).takeWhile is_indent = []) :
    formatrun wf delim untl defaultPositioning [32]
        (formatrun wf delim untl defaultPositioning [32] input) =
      formatrun wf delim untl defaultPositioning [32] input := by
  cases input with
  | nil => rfl
  | cons l1 rest =>
    have halign : defaultPositioning.align = (⟨[], Alignment.Left⟩ : DynVec Alignment) := rfl
    have hmw0 : defaultPositioning.max_width = (⟨[0], 0⟩ : DynVec Nat) := rfl
    have htok1 : tokenizeAll delim untl (l1 :: rest) = (l1 :: rest).map wordsR :=
      tokenizeAll_eq_wordsR delim untl (l1 :: rest) hdelim huntl
    set mw := measureAll wf (⟨[0], 0⟩ : DynVec Nat) ((l1 :: rest).map wordsR) with hmwdef
    set ind := theIndent (l1 :: rest) with hinddef
    set rL := renderLine wf mw (⟨[], Alignment.Left⟩ : DynVec Alignment)
      (List.replicate (maxPad mw) 32) [32] ind with hrLdef
    have hindtw : theIndent (l1 :: rest) = l1.takeWhile is_indent := rfl
    have hindWs : ∀ c ∈ ind, isWs c = true := by
      rw [hinddef, hindtw]
      intro c hc
      exact is_indent_isWs (List.mem_takeWhile_imp hc)
    have hinddelim : delim ∉ ind := by
      rw [hinddef, hindtw]
      intro hmem
      exact hdelim l1 (by simp) (mem_of_mem_takeWhile hmem)
    have hout : formatrun wf delim untl defaultPositioning [32] (l1 :: rest) =
        ((l1 :: rest).map wordsR).map rL := by
      rw [formatrun_eq, htok1, halign, hmw0]
    have helem : ∀ l ∈ (l1 :: rest),
        (Words.new (rL (wordsR l)) delim untl).contents = wordsR l := by
      intro l hl
      rw [hrLdef]
      exact rendered_line_roundtrip wf delim untl mw ind l hindWs hinddelim
        (hdelim l hl) hd32 (huntl l hl)
    have htok2 : tokenizeAll delim untl (((l1 :: rest).map wordsR).map rL) =
        (l1 :: rest).map wordsR := by
      rw [tokenizeAll, List.map_map, List.map_map]
      exact List.map_congr_left (fun l hl => helem l hl)
    have hindent2 : theIndent (((l1 :: rest).map wordsR).map rL) = ind := by
      have hshape : ((l1 :: rest).map wordsR).map rL =
          rL (wordsR l1) :: (rest.map wordsR).map rL := by simp
      rw [hshape]
      rw [show theIndent (rL (wordsR l1) :: (rest.map wordsR).map rL) =
        (rL (wordsR l1)).takeWhile is_indent from rfl]
      cases hw1 : wordsR l1 with
      | nil =>
        have hind_nil : ind = [] := by
          rcases hfirst with hf | hf
          · rw [show (l1 :: rest).headD [] = l1 from rfl] at hf
            exact absurd hw1 hf
          · rw [show (l1 :: rest).headD [] = l1 from rfl] at hf
            rw [hinddef, hindtw]
            exact hf
        have hrlnil : rL [] = [] := by
          rw [hrLdef]
          rfl
        rw [hrlnil, hind_nil]
        rfl
      | cons w t =>
        obtain ⟨r, hr⟩ := renderBody_left_cons wf mw (maxPad mw) w t 0
        have hwmem : w ∈ wordsR l1 := by
          rw [hw1]
          simp
        have hW : GoodWord w := wordsRec_good (l1.length + 1) l1 w hwmem
        have hrl : rL (w :: t) = ind ++ (w ++ r) := by
          rw [hrLdef, renderLine]
          rw [show ((w :: t : List (List Nat)).isEmpty) = false from rfl]
          rw [if_neg (by simp)]
          rw [hr]
        rw [hrl]
        apply takeWhile_word_append
        · intro c hc
          rw [hinddef, hindtw] at hc
          exact List.mem_takeWhile_imp hc
        · exact hW.1
        · have hh := hW.2.1
          cases hii : is_indent (w.headD 0) with
          | false => rfl
          | true =>
            exact absurd (is_indent_isWs hii) (by rw [hh]; simp)
    rw [hout]
    rw [formatrun_eq, htok2, halign, hmw0, hindent2]

/-- Witness for `format_idempotent_thm` on the single input line "a b"
with the default delimiter `"`. -/
theorem format_idempotent_witness :
    formatrun List.length 34 9 defaultPositioning [32]
        (formatrun List.length 34 9 defaultPositioning [32] [[97, 32, 98]]) =
      formatrun List.length 34 9 defaultPositioning [32] [[97, 32, 98]] :=
  format_idempotent_thm List.length 34 9 [[97, 32, 98]] (by decide) (by decide) (by decide)
    (by decide)

end Align
